import Mathlib

/-!
Shallow embedding of `src/store/src/sumtree.rs` (grin store crate): the
persistent backend for the prunable MMR sum-tree.  Machine integers (`u64`,
`usize`) are modelled as `Nat`; subtractions that can underflow in Rust are
modelled with `usizeSub`, which returns `none` exactly when the Rust
subtraction would underflow (a panic in checked builds).  Fallible
operations return `Option`/`Except`: `none`/`.error` marks a panic or I/O
error path.  File contents are byte lists (`List Nat`); collaborators that
live outside this crate (the `core::ser` codec, `core::core::pmmr`'s
`PruneList` and `VecBackend`) are either taken as parameters or modelled
from the specification, as noted on each definition.
-/

namespace GrinStore

/-- Checked unsigned subtraction: `a - b` for `u64`/`usize`, `none` when the
Rust expression would underflow. -/
def usizeSub (a b : Nat) : Option Nat :=
  if b ≤ a then some (a - b) else none

/-! ## AppendOnlyFile -/

/-- `AppendOnlyFile`: `saved` are the bytes of the on-disk file (appends are
visible here immediately); `mmapLen` is `none` when no memory map exists and
`some n` when a read-only map over the first `n` bytes was created by the
last `sync`. -/
structure AOFile where
  saved : List Nat
  mmapLen : Option Nat
deriving DecidableEq

/-- `AppendOnlyFile::append`: write bytes at the end of the file; the mmap is
not touched. -/
def AOFile.append (f : AOFile) (buf : List Nat) : AOFile :=
  { f with saved := f.saved ++ buf }

/-- `AppendOnlyFile::sync`: fsync, then recreate the memory map over the
current file length. -/
def AOFile.syncFile (f : AOFile) : AOFile :=
  { f with mmapLen := some f.saved.length }

/-- `AppendOnlyFile::read`: with no mmap return the empty vector; otherwise
return a copy of `[offset, offset+length)` from the mmap.  A slice beyond the
mapped length panics in Rust, modelled as `none`. -/
def AOFile.read (f : AOFile) (offset length : Nat) : Option (List Nat) :=
  match f.mmapLen with
  | none => some []
  | some n =>
    if offset + length ≤ n then some (((f.saved.take n).drop offset).take length)
    else none

/-- Rust slice `&buf[a..b]`: `none` models the panic when `a > b` or
`b > buf.len()`. -/
def sliceRange (l : List Nat) (a b : Nat) : Option (List Nat) :=
  if a ≤ b ∧ b ≤ l.length then some ((l.drop a).take (b - a)) else none

/-- The inner `while` of `AppendOnlyFile::save_prune`: starting from
`prune_pos`/`buf_start`, process every prune offset falling in the span
`[readT, readT + len)` of the current buffer.  Faithful to the source,
including the indexing `prune_offs[prune_pos]` (which panics on an empty
offsets vector, modelled by `none`) and the use of the absolute offset
`prune_offs[prune_pos]` as an index into the per-chunk buffer.  The first
argument is the count `offs.length - prune_pos` of offsets left, so that
the recursion is structural; it reaches 0 exactly when
`prune_offs[prune_pos]` is out of bounds, the panic case.  Returns the
updated `(prune_pos, buf_start, written)`. -/
def savePruneInnerGo (offs buf : List Nat) (readT len prune_len : Nat) :
    Nat → Nat → Nat → List Nat → Option (Nat × Nat × List Nat)
  | 0, _, _, _ => none
  | n + 1, prune_pos, buf_start, out =>
    match offs[prune_pos]? with
    | none => none
    | some po =>
      if readT ≤ po ∧ po < readT + len then
        let prune_at := po
        match (if prune_at ≠ buf_start then sliceRange buf buf_start prune_at else some []) with
        | none => none
        | some piece =>
          let out2 := out ++ piece
          let bs2 := prune_at + prune_len
          if prune_pos + 1 < offs.length then
            savePruneInnerGo offs buf readT len prune_len n (prune_pos + 1) bs2 out2
          else
            some (prune_pos, bs2, out2)
      else
        some (prune_pos, buf_start, out)

/-- The inner prune loop entered at `prune_pos`. -/
def savePruneInner (offs buf : List Nat) (readT len prune_len : Nat)
    (prune_pos buf_start : Nat) (out : List Nat) :
    Option (Nat × Nat × List Nat) :=
  savePruneInnerGo offs buf readT len prune_len (offs.length - prune_pos)
    prune_pos buf_start out

/-- The read/write loop of `AppendOnlyFile::save_prune`.  `remaining` is the
part of the source file not yet read, `stale` the current contents of the
reused read buffer (sized `prune_len * 256`), `readT` the total bytes read so
far.  Each turn reads `min (prune_len * 256) remaining.length` bytes (our
deterministic model of `File::read`), runs the inner prune loop, and writes
the rest of the span.  `fuel` makes the recursion structural: every turn
either returns or consumes at least one byte of `remaining`, so with
`fuel = remaining.length + 1` the `fuel = 0` case is unreachable. -/
def savePruneGo (offs : List Nat) (prune_len bufSize : Nat) :
    Nat → List Nat → List Nat → Nat → Nat → List Nat → Option (List Nat)
  | 0, _, _, _, _, _ => none
  | fuel + 1, remaining, stale, readT, prune_pos, out =>
    let chunk := remaining.take bufSize
    let len := chunk.length
    if len = 0 then some out
    else
      let buf := chunk ++ stale.drop len
      match savePruneInner offs buf readT len prune_len prune_pos 0 out with
      | none => none
      | some (pp2, bs2, out2) =>
        match sliceRange buf bs2 len with
        | none => none
        | some tail =>
          savePruneGo offs prune_len bufSize fuel (remaining.drop bufSize) buf
            (readT + len) pp2 (out2 ++ tail)

/-- `AppendOnlyFile::save_prune`: stream the file `src` into a target,
skipping `prune_len` bytes at each offset of `prune_offs`.  The buffer is
allocated as `vec![0; prune_len * 256]`.  `none` models a panic or I/O
error. -/
def save_prune (src : List Nat) (prune_offs : List Nat) (prune_len : Nat) :
    Option (List Nat) :=
  savePruneGo prune_offs prune_len (prune_len * 256) (src.length + 1) src
    (List.replicate (prune_len * 256) 0) 0 0 []

/-! ## RemoveLog -/

/-- Insert into a sorted list at the index that `binary_search` reports for a
missing element (the count of strictly smaller entries, for a strictly
sorted vector). -/
def rlInsert (e : Nat) : List Nat → List Nat
  | [] => [e]
  | x :: xs => if e ≤ x then e :: x :: xs else x :: rlInsert e xs

/-- `RemoveLog`: `removed` is the ordered in-memory vector of positions;
`file` records the positions whose encodings were appended to the on-disk
log (one entry per `write_all` of an encoded position). -/
structure RemoveLog where
  removed : List Nat
  file : List Nat
deriving DecidableEq

/-- `RemoveLog::includes`: `binary_search` on the sorted `removed` vector
succeeds exactly when the element is present. -/
def RemoveLog.includes (rl : RemoveLog) (e : Nat) : Prop :=
  e ∈ rl.removed

instance (rl : RemoveLog) (e : Nat) : Decidable (rl.includes e) :=
  inferInstanceAs (Decidable (e ∈ rl.removed))

/-- One turn of the `for elmt in elmts` loop of `RemoveLog::append`: skip an
element that `binary_search` finds, otherwise write its encoding to the
file and insert it at the reported index. -/
def rlStep (rl : RemoveLog) (e : Nat) : RemoveLog :=
  if e ∈ rl.removed then rl
  else { removed := rlInsert e rl.removed, file := rl.file ++ [e] }

/-- `RemoveLog::append`. -/
def RemoveLog.append (rl : RemoveLog) (elmts : List Nat) : RemoveLog :=
  elmts.foldl rlStep rl

/-- `RemoveLog::len`. -/
def RemoveLog.lenRL (rl : RemoveLog) : Nat :=
  rl.removed.length

/-- `RemoveLog::truncate`: clear the vector and truncate the file. -/
def RemoveLog.truncateRL (_rl : RemoveLog) : RemoveLog :=
  { removed := [], file := [] }

/-- A `RemoveLog` opened on an absent file. -/
def rlEmpty : RemoveLog := { removed := [], file := [] }

/-! ## read_ordered_vec -/

/-- Corruption error raised by `read_ordered_vec`. -/
def corruptionMsg (path : String) : String :=
  "Corrupted storage, could not read file at " ++ path

/-- The fill/consume loop of `read_ordered_vec`: each buffered chunk is
deserialized (via the external codec `dec`) into a list of scalars, each
binary-inserted into the accumulator only if absent. -/
def readOrderedGo (dec : List Nat → Option (List Nat)) (path : String) :
    List (List Nat) → List Nat → Except String (List Nat)
  | [], ovec => .ok ovec
  | chunk :: rest, ovec =>
    match dec chunk with
    | some elmts =>
      readOrderedGo dec path rest
        (elmts.foldl (fun ov e => if e ∈ ov then ov else rlInsert e ov) ovec)
    | none => .error (corruptionMsg path)

/-- `read_ordered_vec`: `none` for the file means it is absent (return the
empty vector); otherwise the file is read as a sequence of buffered chunks. -/
def read_ordered_vec (dec : List Nat → Option (List Nat)) (path : String)
    (file : Option (List (List Nat))) : Except String (List Nat) :=
  match file with
  | none => .ok []
  | some chunks => readOrderedGo dec path chunks []

/-! ## Collaborator interfaces

`PruneList` and the `core::ser` codec live in the repository's `core` crate,
outside `src/`; the backend only consumes the interfaces below (spec §6), so
the embedding is parametric in them. -/

/-- Interface of the `PruneList` collaborator (spec §6): `get_shift` is the
count of physically removed records before a position (`none` when the
position lies inside a pruned subtree); `pruned_pos` is the insertion query
used by `check_compact` (`none` when the position is already pruned); `add`
inserts a newly pruned position; `toVec` is the serializable
`pruned_nodes` vector. -/
structure PruneOps (PL : Type) where
  get_shift : PL → Nat → Option Nat
  pruned_pos : PL → Nat → Option Nat
  add : PL → Nat → PL
  toVec : PL → List Nat

/-- Interface of the `core::ser` codec for `HashSum` records: `sum_len` is
`T::sum_len()`, `ser`/`deser` encode and decode one record
(`record_len = 32 + sum_len` bytes). -/
structure Codec (R : Type) where
  sum_len : Nat
  ser : R → List Nat
  deser : List Nat → Option R

/-! ## Write buffer (VecBackend) -/

/-- Modelled from the spec: the write buffer collaborator
(`core::core::pmmr::VecBackend`, not under `src/`).  Spec §6: append at
relative position; with records appended contiguously the relative position
of a new batch is `buffer.len() + 1`.  A slot is `none` once removed. -/
def bufAppend (buffer : List (Option R)) (rel : Nat) (data : List R) :
    Option (List (Option R)) :=
  if rel = buffer.length + 1 then some (buffer ++ data.map some) else none

/-- Modelled from the spec: the write buffer collaborator, get by relative
(1-based) position. -/
def bufGet (buffer : List (Option R)) (rel : Nat) : Option R :=
  (buffer[rel - 1]?).join

/-- Modelled from the spec: the write buffer collaborator, remove by absolute
positions, ignoring positions not present in the buffer (spec §6); a present
position `p` occupies the relative slot `p - buffer_index`. -/
def bufRemove (buffer_index : Nat) (buffer : List (Option R)) :
    List Nat → List (Option R)
  | [] => buffer
  | p :: ps =>
    let b2 :=
      if buffer_index < p ∧ p ≤ buffer_index + buffer.length then
        buffer.set (p - buffer_index - 1) none
      else buffer
    bufRemove buffer_index b2 ps

/-- Modelled from the spec: the write buffer collaborator, `used_size` (the
number of live, non-removed slots). -/
def usedSize (buffer : List (Option R)) : Nat :=
  buffer.countP (fun o => o.isSome)

/-! ## PMMRBackend -/

/-- Maximum number of nodes in the remove log before it gets flushed. -/
def RM_LOG_MAX_NODES : Nat := 10000

/-- `PMMRBackend`: the data file, remove log, prune list, decoded view of
the on-disk `pmmr_pruned.bin` file, write buffer, and `buffer_index`. -/
structure PMMRState (PL R : Type) where
  hashsum_file : AOFile
  remove_log : RemoveLog
  pruned_nodes : PL
  pruneFile : List Nat
  buffer : List (Option R)
  buffer_index : Nat
deriving DecidableEq

/-- `PMMRBackend::append`: insert the records in the buffer at relative
position `position - buffer_index`, then append each record's encoding to
the data file.  `none` models the error return of the buffer append. -/
def PMMR.append (c : Codec R) (st : PMMRState PL R) (position : Nat)
    (data : List R) : Option (PMMRState PL R) :=
  match bufAppend st.buffer (position - st.buffer_index) data with
  | none => none
  | some buf =>
    some { st with
      buffer := buf,
      hashsum_file := st.hashsum_file.append (data.map c.ser).flatten }

/-- `PMMRBackend::get`: check the write buffer, then the remove log, then
the prune list's shift, then read `record_len = 32 + sum_len` bytes from the
data file at `(position - 1 - shift) * record_len` and decode.  The outer
`Option` marks a panic: the unchecked `position - 1` underflow, the
`pos - shift` underflow, or an out-of-range mmap slice. -/
def PMMR.get (c : Codec R) (ops : PruneOps PL) (st : PMMRState PL R)
    (position : Nat) : Option (Option R) :=
  match usizeSub position 1 with
  | none => none
  | some posm1 =>
    if st.buffer_index ≤ posm1 ∧ posm1 < st.buffer_index + st.buffer.length then
      some (bufGet st.buffer (position - st.buffer_index))
    else if st.remove_log.includes position then
      some none
    else
      match ops.get_shift st.pruned_nodes position with
      | none => some none
      | some shift =>
        match usizeSub posm1 shift with
        | none => none
        | some k =>
          match st.hashsum_file.read (k * (32 + c.sum_len)) (32 + c.sum_len) with
          | none => none
          | some data => some (c.deser data)

/-- `PMMRBackend::remove`: when the buffer has live entries, remove the
positions from it; always append them to the remove log. -/
def PMMR.remove (st : PMMRState PL R) (positions : List Nat) : PMMRState PL R :=
  let buffer :=
    if usedSize st.buffer > 0 then bufRemove st.buffer_index st.buffer positions
    else st.buffer
  { st with buffer := buffer, remove_log := st.remove_log.append positions }

/-- `PMMRBackend::sync`: advance `buffer_index` by the buffer length and
clear the buffer, then fsync and remap the data file.  `fsyncOk` is the
outcome of the fsync/remap step; on failure the error is returned but the
buffer mutation is already done.  The `Bool` result is `true` on success. -/
def PMMR.sync (fsyncOk : Bool) (st : PMMRState PL R) : PMMRState PL R × Bool :=
  let st1 := { st with buffer_index := st.buffer_index + st.buffer.length,
                       buffer := ([] : List (Option R)) }
  if fsyncOk then
    ({ st1 with hashsum_file := st1.hashsum_file.syncFile }, true)
  else (st1, false)

/-- Steps 1-3 of `PMMRBackend::check_compact` once the threshold and the
consistency check have passed: compute the byte offsets of the removed
positions (with the shifts of the current prune list;
`get_shift(...).unwrap()` and the `u64` subtractions panic via `none`),
rewrite the data file through `save_prune`, add the removed positions to the
prune list, save it (`pruneFile` holds the decoded view written by
`write_vec`), rename the compact copy over the data file, and re-open and
sync it.  Step 4 (`remove_log.truncate()`) is commented out in the source,
so the remove log is left as it was. -/
def compactionBody (c : Codec R) (ops : PruneOps PL) (st : PMMRState PL R) :
    Option (PMMRState PL R) :=
  let record_len := 32 + c.sum_len
  match st.remove_log.removed.mapM (fun pos =>
      match usizeSub pos 1 with
      | none => none
      | some pm1 =>
        match ops.get_shift st.pruned_nodes pos with
        | none => none
        | some sh =>
          match usizeSub pm1 sh with
          | none => none
          | some d => some (d * record_len)) with
  | none => none
  | some to_rm =>
    match save_prune st.hashsum_file.saved to_rm record_len with
    | none => none
    | some newData =>
      let pl2 := st.remove_log.removed.foldl (fun pl pos => ops.add pl pos) st.pruned_nodes
      some { st with
        hashsum_file := { saved := newData, mmapLen := some newData.length },
        pruned_nodes := pl2,
        pruneFile := ops.toVec pl2 }

/-- `PMMRBackend::check_compact(max_len)`: return unchanged unless the remove
log length exceeds `max_len` (or `RM_LOG_MAX_NODES` when `max_len = 0`);
abort unchanged when any remove-log position has `pruned_pos` equal to
`none` (already pruned); otherwise run the compaction body. -/
def PMMR.check_compact (c : Codec R) (ops : PruneOps PL) (st : PMMRState PL R)
    (max_len : Nat) : Option (PMMRState PL R) :=
  if ¬ (max_len > 0 ∧ st.remove_log.lenRL > max_len ∨
        max_len = 0 ∧ st.remove_log.lenRL > RM_LOG_MAX_NODES) then
    some st
  else if st.remove_log.removed.any (fun pos => (ops.pruned_pos st.pruned_nodes pos).isNone) then
    some st
  else
    compactionBody c ops st

/-- `PMMRBackend::new` on an empty data directory: empty data file, no mmap,
empty remove log, `buffer_index = size / record_len = 0`, the given prune
list. -/
def initState (pl : PL) : PMMRState PL R :=
  { hashsum_file := { saved := [], mmapLen := none },
    remove_log := rlEmpty,
    pruned_nodes := pl,
    pruneFile := [],
    buffer := [],
    buffer_index := 0 }

/-! ## Traces of backend operations -/

/-- One backend call in a trace: an append of a batch of records at the
current write frontier, a remove, or a (successful) sync. -/
inductive POp (R : Type) where
  | app (data : List R)
  | rm (ps : List Nat)
  | syncOp
deriving DecidableEq

/-- Run a trace.  Appends happen at the contiguous frontier position
`buffer_index + buffer.len() + 1`, as the spec requires of callers. -/
def runOps (c : Codec R) (st : PMMRState PL R) : List (POp R) → Option (PMMRState PL R)
  | [] => some st
  | POp.app data :: rest =>
    match PMMR.append c st (st.buffer_index + st.buffer.length + 1) data with
    | none => none
    | some st2 => runOps c st2 rest
  | POp.rm ps :: rest => runOps c (PMMR.remove st ps) rest
  | POp.syncOp :: rest => runOps c (PMMR.sync true st).1 rest

/-- The records appended by a trace, in order. -/
def records : List (POp R) → List R
  | [] => []
  | POp.app data :: rest => data ++ records rest
  | POp.rm _ :: rest => records rest
  | POp.syncOp :: rest => records rest

/-- Pair a list of records with consecutive positions starting at `n`. -/
def numberFrom (n : Nat) : List R → List (Nat × R)
  | [] => []
  | r :: rs => (n, r) :: numberFrom (n + 1) rs

/-- The ledger of a trace: each appended record with the MMR position it was
appended at, the frontier starting at `f`. -/
def ledger (f : Nat) : List (POp R) → List (Nat × R)
  | [] => []
  | POp.app data :: rest => numberFrom (f + 1) data ++ ledger (f + data.length) rest
  | POp.rm _ :: rest => ledger f rest
  | POp.syncOp :: rest => ledger f rest

/-- All positions ever passed to `remove` in a trace. -/
def removedPs : List (POp R) → List Nat
  | [] => []
  | POp.rm ps :: rest => ps ++ removedPs rest
  | POp.app _ :: rest => removedPs rest
  | POp.syncOp :: rest => removedPs rest

/-- The positions passed to `remove` at a point of the trace where they were
already appended (the frontier being `f` when the remove happens): the
positions "subsequently removed" after their append. -/
def removedAfterAppend (f : Nat) : List (POp R) → List Nat
  | [] => []
  | POp.app data :: rest => removedAfterAppend (f + data.length) rest
  | POp.rm ps :: rest => ps.filter (fun p => p ≤ f) ++ removedAfterAppend f rest
  | POp.syncOp :: rest => removedAfterAppend f rest

/-! ## Concrete collaborators used by witnesses -/

/-- A concrete codec on `R = Nat` with `sum_len = 8` (`record_len = 40`):
the record value followed by 39 padding bytes. -/
def natCodec : Codec Nat :=
  { sum_len := 8,
    ser := fun n => n :: List.replicate 39 0,
    deser := fun l =>
      match l with
      | [] => none
      | x :: rest => if rest.length = 39 then some x else none }

/-- A concrete prune list collaborator over `PL = Unit` describing an empty
prune list: no position is pruned, every shift is zero. -/
def unitOps : PruneOps Unit :=
  { get_shift := fun _ _ => some 0,
    pruned_pos := fun _ _ => some 0,
    add := fun pl _ => pl,
    toVec := fun _ => [] }

/-! ## Lemmas on ordered insertion -/

theorem mem_rlInsert (q e : Nat) (l : List Nat) :
    q ∈ rlInsert e l ↔ q = e ∨ q ∈ l := by
  induction l with
  | nil => simp [rlInsert]
  | cons x xs ih =>
    simp only [rlInsert]
    by_cases h : e ≤ x
    · simp [h]
    · simp only [if_neg h, List.mem_cons, ih]
      tauto

theorem rlInsert_sorted {e : Nat} {l : List Nat} (he : e ∉ l)
    (hs : List.Sorted (· < ·) l) : List.Sorted (· < ·) (rlInsert e l) := by
  induction l with
  | nil => simp [rlInsert]
  | cons x xs ih =>
    simp only [rlInsert]
    rw [List.sorted_cons] at hs
    obtain ⟨hx, hxs⟩ := hs
    by_cases h : e ≤ x
    · have hne : e ≠ x := fun hcontra => he (by simp [hcontra])
      rw [if_pos h, List.sorted_cons]
      refine ⟨?_, ?_⟩
      · intro b hb
        rcases List.mem_cons.mp hb with rfl | hbxs
        · omega
        · have := hx b hbxs; omega
      · rw [List.sorted_cons]; exact ⟨hx, hxs⟩
    · rw [if_neg h, List.sorted_cons]
      refine ⟨?_, ?_⟩
      · intro b hb
        rcases (mem_rlInsert b e xs).mp hb with rfl | hbxs
        · omega
        · exact hx b hbxs
      · exact ih (fun hmem => he (List.mem_cons_of_mem x hmem)) hxs

/-! ## Lemmas on RemoveLog.append -/

theorem rlStep_removed_mem (rl : RemoveLog) (e q : Nat) :
    q ∈ (rlStep rl e).removed ↔ q = e ∨ q ∈ rl.removed := by
  unfold rlStep
  by_cases h : e ∈ rl.removed
  · simp only [if_pos h]
    constructor
    · exact fun hq => Or.inr hq
    · rintro (rfl | hq)
      · exact h
      · exact hq
  · simp only [if_neg h]
    exact mem_rlInsert q e rl.removed

theorem rlStep_sorted (rl : RemoveLog) (e : Nat)
    (hs : List.Sorted (· < ·) rl.removed) :
    List.Sorted (· < ·) (rlStep rl e).removed := by
  unfold rlStep
  by_cases h : e ∈ rl.removed
  · simpa [h] using hs
  · simp only [if_neg h]
    exact rlInsert_sorted h hs

theorem append_removed_mem (elmts : List Nat) :
    ∀ (rl : RemoveLog) (q : Nat),
      q ∈ (rl.append elmts).removed ↔ q ∈ rl.removed ∨ q ∈ elmts := by
  induction elmts with
  | nil => intro rl q; simp [RemoveLog.append]
  | cons e es ih =>
    intro rl q
    show q ∈ ((rlStep rl e).append es).removed ↔ _
    rw [ih, rlStep_removed_mem]
    simp only [List.mem_cons]
    tauto

theorem append_sorted (elmts : List Nat) :
    ∀ (rl : RemoveLog), List.Sorted (· < ·) rl.removed →
      List.Sorted (· < ·) (rl.append elmts).removed := by
  induction elmts with
  | nil => exact fun rl hs => hs
  | cons e es ih => exact fun rl hs => ih (rlStep rl e) (rlStep_sorted rl e hs)

theorem append_mem_noop (rl : RemoveLog) (e : Nat) (h : e ∈ rl.removed) :
    rl.append [e] = rl := by
  show rlStep rl e = rl
  unfold rlStep
  simp [h]

/-! ## Lemmas on read_ordered_vec -/

theorem ovFold_sorted (elmts : List Nat) :
    ∀ ov : List Nat, List.Sorted (· < ·) ov →
      List.Sorted (· < ·)
        (elmts.foldl (fun ov e => if e ∈ ov then ov else rlInsert e ov) ov) := by
  induction elmts with
  | nil => exact fun ov hs => hs
  | cons e es ih =>
    intro ov hs
    refine ih _ ?_
    by_cases h : e ∈ ov
    · simpa [h] using hs
    · simp only [if_neg h]
      exact rlInsert_sorted h hs

theorem readOrderedGo_sorted (dec : List Nat → Option (List Nat)) (path : String)
    (chunks : List (List Nat)) :
    ∀ ov l, List.Sorted (· < ·) ov →
      readOrderedGo dec path chunks ov = .ok l → List.Sorted (· < ·) l := by
  induction chunks with
  | nil =>
    intro ov l hs h
    cases h
    exact hs
  | cons ch rest ih =>
    intro ov l hs h
    unfold readOrderedGo at h
    cases hdec : dec ch with
    | some elmts =>
      rw [hdec] at h
      exact ih _ l (ovFold_sorted elmts ov hs) h
    | none =>
      rw [hdec] at h
      exact Except.noConfusion h

theorem readOrderedGo_error (dec : List Nat → Option (List Nat)) (path : String)
    (chunks : List (List Nat)) :
    ∀ ov e, readOrderedGo dec path chunks ov = .error e → e = corruptionMsg path := by
  induction chunks with
  | nil =>
    intro ov e h
    exact Except.noConfusion h
  | cons ch rest ih =>
    intro ov e h
    unfold readOrderedGo at h
    cases hdec : dec ch with
    | some elmts =>
      rw [hdec] at h
      exact ih _ e h
    | none =>
      rw [hdec] at h
      cases h
      rfl

theorem readOrderedGo_ok (dec : List Nat → Option (List Nat)) (path : String)
    (chunks : List (List Nat)) (hdec : ∀ ch ∈ chunks, (dec ch).isSome) :
    ∀ ov, ∃ l, readOrderedGo dec path chunks ov = .ok l := by
  induction chunks with
  | nil => exact fun ov => ⟨ov, rfl⟩
  | cons ch rest ih =>
    intro ov
    have h1 : (dec ch).isSome := hdec ch (by simp)
    cases helmts : dec ch with
    | none => rw [helmts] at h1; cases h1
    | some elmts =>
      have := ih (fun c hc => hdec c (List.mem_cons_of_mem ch hc))
      unfold readOrderedGo
      rw [helmts]
      exact this _

/-! ## Slicing a concatenation of fixed-width records -/

theorem flatten_length_uniform (w : Nat) :
    ∀ (xs : List (List Nat)), (∀ x ∈ xs, x.length = w) →
      xs.flatten.length = xs.length * w := by
  intro xs
  induction xs with
  | nil => simp
  | cons x xs ih =>
    intro h
    have hx : x.length = w := h x (by simp)
    have hxs := ih (fun y hy => h y (List.mem_cons_of_mem x hy))
    simp only [List.flatten_cons, List.length_append, List.length_cons, hx, hxs,
      Nat.succ_mul]
    omega

theorem flatten_take_mul (w : Nat) :
    ∀ (xs : List (List Nat)), (∀ x ∈ xs, x.length = w) →
      ∀ k, xs.flatten.take (k * w) = (xs.take k).flatten := by
  intro xs
  induction xs with
  | nil => intro _ k; simp
  | cons x xs ih =>
    intro h k
    cases k with
    | zero => simp
    | succ k =>
      have hx : x.length = w := h x (by simp)
      rw [List.flatten_cons, List.take_succ_cons, List.flatten_cons,
        show (k + 1) * w = x.length + k * w by rw [hx, Nat.succ_mul]; omega,
        List.take_append, ih (fun y hy => h y (List.mem_cons_of_mem x hy)) k]

theorem flatten_drop_mul (w : Nat) :
    ∀ (xs : List (List Nat)), (∀ x ∈ xs, x.length = w) →
      ∀ k, xs.flatten.drop (k * w) = (xs.drop k).flatten := by
  intro xs
  induction xs with
  | nil => intro _ k; simp
  | cons x xs ih =>
    intro h k
    cases k with
    | zero => simp
    | succ k =>
      have hx : x.length = w := h x (by simp)
      rw [List.flatten_cons, List.drop_succ_cons,
        show (k + 1) * w = x.length + k * w by rw [hx, Nat.succ_mul]; omega,
        List.drop_append, ih (fun y hy => h y (List.mem_cons_of_mem x hy)) k]

/-- Extracting the `i`-th record from the first `n` records of a
concatenation of `w`-byte records: the mmap-read slice of `PMMR.get`. -/
theorem flatten_extract (w : Nat) (xs : List (List Nat))
    (h : ∀ x ∈ xs, x.length = w) (i n : Nat) (hi : i < n) (hn : n ≤ xs.length)
    (x : List Nat) (hx : xs[i]? = some x) :
    ((xs.flatten.take (n * w)).drop (i * w)).take w = x := by
  rw [flatten_take_mul w xs h n]
  have htn : ∀ y ∈ xs.take n, y.length = w := fun y hy => h y (List.take_subset n xs hy)
  rw [flatten_drop_mul w _ htn i]
  have hi2 : i < (xs.take n).length := by
    rw [List.length_take]
    have := List.getElem?_mem hx
    omega
  rw [List.drop_eq_getElem_cons hi2, List.flatten_cons]
  have hxi : (xs.take n)[i] = x := by
    have h1 : (xs.take n)[i]? = some ((xs.take n)[i]) := List.getElem?_eq_getElem hi2
    have h2 : (xs.take n)[i]? = some x := by
      rw [List.getElem?_take, if_pos hi, hx]
    rw [h1] at h2
    exact Option.some.inj h2
  rw [hxi]
  have hxlen : x.length = w := h x (List.getElem?_mem hx)
  rw [← hxlen, List.take_left]

/-! ## Invariant carried by traces from a fresh backend -/

/-- Unfolding of `PMMR.get` for a one-based position (the `position - 1`
subtraction does not underflow). -/
theorem get_pos (c : Codec R) (ops : PruneOps PL) (st : PMMRState PL R)
    (p : Nat) (hp : 1 ≤ p) :
    PMMR.get c ops st p =
      (if st.buffer_index ≤ p - 1 ∧ p - 1 < st.buffer_index + st.buffer.length then
        some (bufGet st.buffer (p - st.buffer_index))
      else if st.remove_log.includes p then some none
      else
        match ops.get_shift st.pruned_nodes p with
        | none => some none
        | some shift =>
          match usizeSub (p - 1) shift with
          | none => none
          | some k =>
            match st.hashsum_file.read (k * (32 + c.sum_len)) (32 + c.sum_len) with
            | none => none
            | some data => some (c.deser data)) := by
  unfold PMMR.get
  rw [show usizeSub p 1 = some (p - 1) from by simp [usizeSub, hp]]

/-- State invariant after running any trace from a fresh backend whose prune
list is `pl0`: `L` is the list of appended records (position `p` holding
`L[p-1]`), `RM` the set of positions ever removed. -/
structure Inv (c : Codec R) (pl0 : PL) (L : List R) (RM : List Nat)
    (st : PMMRState PL R) : Prop where
  pl_eq : st.pruned_nodes = pl0
  frontier : st.buffer_index + st.buffer.length = L.length
  saved_eq : st.hashsum_file.saved = (L.map c.ser).flatten
  mmap_eq : (st.hashsum_file.mmapLen = none ∧ st.buffer_index = 0) ∨
    st.hashsum_file.mmapLen = some (st.buffer_index * (32 + c.sum_len))
  buf_content : ∀ j, j < st.buffer.length → st.buffer_index + j + 1 ∉ RM →
    st.buffer[j]? = some (L[st.buffer_index + j]?)
  rm_eq : ∀ q, q ∈ st.remove_log.removed ↔ q ∈ RM

theorem inv_init (c : Codec R) (pl0 : PL) :
    Inv c pl0 [] [] (initState pl0 : PMMRState PL R) := by
  refine ⟨rfl, rfl, rfl, Or.inl ⟨rfl, rfl⟩, ?_, ?_⟩
  · intro j hj
    simp [initState] at hj
  · intro q
    simp [initState, rlEmpty]

/-- The state produced by `PMMR.append` at the contiguous frontier. -/
def appendResult (c : Codec R) (st : PMMRState PL R) (data : List R) :
    PMMRState PL R :=
  { st with
    buffer := st.buffer ++ data.map some,
    hashsum_file := st.hashsum_file.append (data.map c.ser).flatten }

theorem append_at_frontier (c : Codec R) (st : PMMRState PL R) (data : List R) :
    PMMR.append c st (st.buffer_index + st.buffer.length + 1) data =
      some (appendResult c st data) := by
  unfold PMMR.append bufAppend appendResult
  rw [show st.buffer_index + st.buffer.length + 1 - st.buffer_index =
    st.buffer.length + 1 from by omega, if_pos rfl]

theorem inv_appendResult {c : Codec R} {pl0 : PL} {L : List R} {RM : List Nat}
    {st : PMMRState PL R} (hInv : Inv c pl0 L RM st) (data : List R) :
    Inv c pl0 (L ++ data) RM (appendResult c st data) := by
  obtain ⟨hpl, hfr, hsv, hmm, hbc, hrm⟩ := hInv
  refine ⟨hpl, ?_, ?_, ?_, ?_, hrm⟩
  · simp only [appendResult, List.length_append, List.length_map]
    omega
  · simp only [appendResult, AOFile.append, hsv, List.map_append, List.flatten_append]
  · simpa only [appendResult] using hmm
  · intro j hj hnotrm
    simp only [appendResult] at hj hnotrm ⊢
    simp only [List.length_append, List.length_map] at hj
    by_cases hcase : j < st.buffer.length
    · rw [List.getElem?_append, if_pos hcase,
        List.getElem?_append, if_pos (show st.buffer_index + j < L.length by omega)]
      exact hbc j hcase hnotrm
    · push_neg at hcase
      rw [List.getElem?_append_right (by simpa using hcase),
        List.getElem?_append_right (show L.length ≤ st.buffer_index + j by omega),
        List.getElem?_map,
        show st.buffer_index + j - L.length = j - st.buffer.length from by omega,
        List.getElem?_eq_getElem (show j - st.buffer.length < data.length by omega)]
      rfl

theorem bufRemove_length (ps : List Nat) :
    ∀ (buffer : List (Option R)) (bi : Nat),
      (bufRemove bi buffer ps).length = buffer.length := by
  induction ps with
  | nil => intro buffer bi; rfl
  | cons p ps ih =>
    intro buffer bi
    unfold bufRemove
    by_cases h : bi < p ∧ p ≤ bi + buffer.length
    · simp only [if_pos h, ih, List.length_set]
    · simp only [if_neg h, ih]

theorem bufRemove_getElem? (ps : List Nat) :
    ∀ (buffer : List (Option R)) (bi j : Nat), bi + j + 1 ∉ ps →
      (bufRemove bi buffer ps)[j]? = buffer[j]? := by
  induction ps with
  | nil => intro buffer bi j _; rfl
  | cons p ps ih =>
    intro buffer bi j h
    have hne : p ≠ bi + j + 1 := fun hc => h (by simp [hc])
    unfold bufRemove
    by_cases hr : bi < p ∧ p ≤ bi + buffer.length
    · simp only [if_pos hr]
      rw [ih _ bi j (fun hm => h (List.mem_cons_of_mem p hm))]
      exact List.getElem?_set_ne (by omega)
    · simp only [if_neg hr]
      exact ih _ bi j (fun hm => h (List.mem_cons_of_mem p hm))

theorem inv_remove {c : Codec R} {pl0 : PL} {L : List R} {RM : List Nat}
    {st : PMMRState PL R} (hInv : Inv c pl0 L RM st) (ps : List Nat) :
    Inv c pl0 L (RM ++ ps) (PMMR.remove st ps) := by
  obtain ⟨hpl, hfr, hsv, hmm, hbc, hrm⟩ := hInv
  have hlen2 : (if usedSize st.buffer > 0 then bufRemove st.buffer_index st.buffer ps
      else st.buffer).length = st.buffer.length := by
    by_cases h : usedSize st.buffer > 0
    · simp only [if_pos h, bufRemove_length]
    · simp only [if_neg h]
  refine ⟨hpl, ?_, hsv, hmm, ?_, ?_⟩
  · simpa only [PMMR.remove, hlen2] using hfr
  · intro j hj hnotrm
    simp only [PMMR.remove] at hj ⊢
    rw [hlen2] at hj
    have hps : st.buffer_index + j + 1 ∉ ps := fun hm =>
      hnotrm (List.mem_append.mpr (Or.inr hm))
    have hRM : st.buffer_index + j + 1 ∉ RM := fun hm =>
      hnotrm (List.mem_append.mpr (Or.inl hm))
    by_cases h : usedSize st.buffer > 0
    · rw [if_pos h, bufRemove_getElem? ps st.buffer st.buffer_index j hps]
      exact hbc j hj hRM
    · rw [if_neg h]
      exact hbc j hj hRM
  · intro q
    simp only [PMMR.remove]
    rw [append_removed_mem ps st.remove_log q, hrm q, List.mem_append]

theorem sync_true_eq (st : PMMRState PL R) :
    (PMMR.sync true st).1 =
      { st with
        buffer_index := st.buffer_index + st.buffer.length,
        buffer := [],
        hashsum_file := { st.hashsum_file with
          mmapLen := some st.hashsum_file.saved.length } } := rfl

theorem inv_sync {c : Codec R} {pl0 : PL} {L : List R} {RM : List Nat}
    {st : PMMRState PL R} (hlen : ∀ r, (c.ser r).length = 32 + c.sum_len)
    (hInv : Inv c pl0 L RM st) :
    Inv c pl0 L RM (PMMR.sync true st).1 := by
  obtain ⟨hpl, hfr, hsv, hmm, hbc, hrm⟩ := hInv
  rw [sync_true_eq]
  refine ⟨hpl, ?_, hsv, ?_, ?_, hrm⟩
  · simpa using hfr
  · refine Or.inr ?_
    show some st.hashsum_file.saved.length = _
    rw [hsv, flatten_length_uniform (32 + c.sum_len) (L.map c.ser)
      (fun x hx => by obtain ⟨r2, _, rfl⟩ := List.mem_map.mp hx; exact hlen r2)]
    rw [List.length_map, ← hfr]
  · intro j hj
    simp at hj

theorem runOps_inv {c : Codec R} {pl0 : PL}
    (hlen : ∀ r, (c.ser r).length = 32 + c.sum_len) :
    ∀ (tr : List (POp R)) (st st2 : PMMRState PL R) (L : List R) (RM : List Nat),
      Inv c pl0 L RM st → runOps c st tr = some st2 →
      Inv c pl0 (L ++ records tr) (RM ++ removedPs tr) st2 := by
  intro tr
  induction tr with
  | nil =>
    intro st st2 L RM hInv hrun
    cases hrun
    simpa [records, removedPs] using hInv
  | cons op rest ih =>
    intro st st2 L RM hInv hrun
    cases op with
    | app data =>
      unfold runOps at hrun
      rw [append_at_frontier c st data] at hrun
      have h2 := ih (appendResult c st data) st2 (L ++ data) RM
        (inv_appendResult hInv data) hrun
      simpa [records, removedPs, List.append_assoc] using h2
    | rm ps =>
      unfold runOps at hrun
      have h2 := ih (PMMR.remove st ps) st2 L (RM ++ ps)
        (inv_remove hInv ps) hrun
      simpa [records, removedPs, List.append_assoc] using h2
    | syncOp =>
      unfold runOps at hrun
      have h2 := ih (PMMR.sync true st).1 st2 L RM
        (inv_sync hlen hInv) hrun
      simpa [records, removedPs] using h2

/-! ## The ledger of appended positions -/

theorem mem_numberFrom (p : Nat) (r : R) :
    ∀ (l : List R) (n : Nat),
      (p, r) ∈ numberFrom n l ↔ ∃ i, l[i]? = some r ∧ p = n + i := by
  intro l
  induction l with
  | nil => intro n; simp [numberFrom]
  | cons x xs ih =>
    intro n
    simp only [numberFrom, List.mem_cons]
    constructor
    · rintro (heq | hmem)
      · have hp : p = n := congrArg Prod.fst heq
        have hr : r = x := congrArg Prod.snd heq
        exact ⟨0, by simp [← hr], by omega⟩
      · obtain ⟨i, hi, hp⟩ := (ih (n + 1)).mp hmem
        exact ⟨i + 1, by simpa using hi, by omega⟩
    · rintro ⟨i, hi, rfl⟩
      cases i with
      | zero =>
        left
        simp only [List.getElem?_cons_zero, Option.some.injEq] at hi
        simp [hi]
      | succ i =>
        right
        refine (ih (n + 1)).mpr ⟨i, by simpa using hi, by omega⟩

theorem ledger_mem (p : Nat) (r : R) :
    ∀ (tr : List (POp R)) (f : Nat),
      (p, r) ∈ ledger f tr ↔ ∃ i, (records tr)[i]? = some r ∧ p = f + i + 1 := by
  intro tr
  induction tr with
  | nil => intro f; simp [ledger, records]
  | cons op rest ih =>
    intro f
    cases op with
    | app data =>
      simp only [ledger, records, List.mem_append]
      rw [mem_numberFrom, ih (f + data.length)]
      constructor
      · rintro (⟨i, hi, rfl⟩ | ⟨i, hi, rfl⟩)
        · have hlt : i < data.length := by
            by_contra hge
            push_neg at hge
            rw [List.getElem?_eq_none hge] at hi
            cases hi
          refine ⟨i, ?_, by omega⟩
          rw [List.getElem?_append, if_pos hlt]
          exact hi
        · refine ⟨data.length + i, ?_, by omega⟩
          rw [List.getElem?_append_right (by omega)]
          simpa using hi
      · rintro ⟨i, hi, rfl⟩
        by_cases hlt : i < data.length
        · left
          refine ⟨i, ?_, by omega⟩
          rw [List.getElem?_append, if_pos hlt] at hi
          exact hi
        · right
          push_neg at hlt
          refine ⟨i - data.length, ?_, by omega⟩
          rw [List.getElem?_append_right hlt] at hi
          exact hi
    | rm ps =>
      simp only [ledger, records]
      exact ih f
    | syncOp =>
      simp only [ledger, records]
      exact ih f

/-! ## The amended append/get round-trip -/

theorem roundtrip_get {c : Codec R} {ops : PruneOps PL} {pl0 : PL}
    (hshift : ∀ p, ops.get_shift pl0 p = some 0)
    (hlen : ∀ r, (c.ser r).length = 32 + c.sum_len)
    (hrt : ∀ r, c.deser (c.ser r) = some r)
    {L : List R} {RM : List Nat} {st : PMMRState PL R}
    (hInv : Inv c pl0 L RM st) (i : Nat) (r : R)
    (hi : L[i]? = some r) (hnotrm : i + 1 ∉ RM) :
    PMMR.get c ops st (i + 1) = some (some r) := by
  obtain ⟨hpl, hfr, hsv, hmm, hbc, hrm⟩ := hInv
  have hiL : i < L.length := by
    by_contra hge
    push_neg at hge
    rw [List.getElem?_eq_none hge] at hi
    cases hi
  rw [get_pos c ops st (i + 1) (by omega)]
  simp only [Nat.add_sub_cancel]
  by_cases hcase : st.buffer_index ≤ i
  · -- the position is still in the write buffer
    rw [if_pos ⟨hcase, by omega⟩]
    unfold bufGet
    have hj := hbc (i - st.buffer_index) (by omega)
      (by rw [show st.buffer_index + (i - st.buffer_index) + 1 = i + 1 from by omega]
          exact hnotrm)
    rw [show i + 1 - st.buffer_index - 1 = i - st.buffer_index from by omega, hj,
      show st.buffer_index + (i - st.buffer_index) = i from by omega, hi]
    rfl
  · -- the position is on disk, read through the mmap
    push_neg at hcase
    rw [if_neg (by omega)]
    rw [if_neg (show ¬ st.remove_log.includes (i + 1) from
      fun hmem => hnotrm ((hrm (i + 1)).mp hmem))]
    simp only [hpl, hshift (i + 1)]
    simp only [show usizeSub i 0 = some i from by simp [usizeSub]]
    rcases hmm with ⟨_, hzero⟩ | hsome
    · omega
    · have hle : i * (32 + c.sum_len) + (32 + c.sum_len) ≤
          st.buffer_index * (32 + c.sum_len) := by
        have h3 : (i + 1) * (32 + c.sum_len) ≤ st.buffer_index * (32 + c.sum_len) :=
          Nat.mul_le_mul_right _ (by omega)
        rwa [Nat.succ_mul] at h3
      simp only [AOFile.read, hsome, if_pos hle, hsv]
      rw [flatten_extract (32 + c.sum_len) (L.map c.ser)
        (fun x hxm => by obtain ⟨r2, _, rfl⟩ := List.mem_map.mp hxm; exact hlen r2)
        i st.buffer_index hcase (by rw [List.length_map]; omega) (c.ser r)
        (by rw [List.getElem?_map, hi]; rfl)]
      rw [hrt r]

/-! ## The specification's description of get outside the buffer -/

/-- The resolution that the specification prescribes for `get` at a position
outside the buffer range: none when the removal log includes the position or
`get_shift` is none; otherwise read `record_len` bytes of the data file at
`(position - 1 - shift) * record_len` and return the decoded record, none
when decoding fails. -/
def getSpecOutside (c : Codec R) (ops : PruneOps PL) (st : PMMRState PL R)
    (position : Nat) : Option (Option R) :=
  if st.remove_log.includes position then some none
  else
    match ops.get_shift st.pruned_nodes position with
    | none => some none
    | some shift =>
      match usizeSub (position - 1) shift with
      | none => none
      | some k =>
        match st.hashsum_file.read (k * (32 + c.sum_len)) (32 + c.sum_len) with
        | none => none
        | some data => some (c.deser data)

/-! ## Sample states and traces used by the witnesses -/

/-- Two records persisted, position 2 removed, empty buffer. -/
def stC1 : PMMRState Unit Nat :=
  { hashsum_file := { saved := natCodec.ser 5 ++ natCodec.ser 9, mmapLen := some 80 },
    remove_log := { removed := [2], file := [2] },
    pruned_nodes := (), pruneFile := [], buffer := [], buffer_index := 2 }

/-- A state whose removal log holds `[3, 4]`. -/
def st4 : PMMRState Unit Nat :=
  { hashsum_file := { saved := [], mmapLen := none },
    remove_log := { removed := [3, 4], file := [3, 4] },
    pruned_nodes := (), pruneFile := [], buffer := [], buffer_index := 0 }

/-- A prune list collaborator under which position 3 is already pruned. -/
def ops4 : PruneOps Unit :=
  { get_shift := fun _ _ => some 0,
    pruned_pos := fun _ p => if p = 3 then none else some 0,
    add := fun pl _ => pl,
    toVec := fun _ => [] }

/-- Removal log of length one, below any positive threshold. -/
def st5a : PMMRState Unit Nat :=
  { hashsum_file := { saved := [], mmapLen := none },
    remove_log := { removed := [6], file := [6] },
    pruned_nodes := (), pruneFile := [], buffer := [], buffer_index := 0 }

/-- Removal log of length two over an empty data file. -/
def st5b : PMMRState Unit Nat :=
  { hashsum_file := { saved := [], mmapLen := none },
    remove_log := { removed := [1, 2], file := [1, 2] },
    pruned_nodes := (), pruneFile := [], buffer := [], buffer_index := 0 }

/-- Removal log of length two over an empty data file (compaction input). -/
def st3b : PMMRState Unit Nat :=
  { hashsum_file := { saved := [], mmapLen := none },
    remove_log := { removed := [1, 2], file := [1, 2] },
    pruned_nodes := (), pruneFile := [], buffer := [], buffer_index := 0 }

/-- The state `check_compact` produces from `st3b`: data file rewritten
(still empty) and re-synced, removal log untouched. -/
def st3bAfter : PMMRState Unit Nat :=
  { st3b with hashsum_file := { saved := [], mmapLen := some 0 } }

/-- A removal log already containing 2 and 9. -/
def rlW : RemoveLog := { removed := [2, 9], file := [2, 9] }

/-- Sequences of `RemoveLog::append` calls. -/
def rlAppendAll (rl : RemoveLog) (ess : List (List Nat)) : RemoveLog :=
  ess.foldl RemoveLog.append rl

/-- A codec for the removal-log scalars that fails on the chunk `[99]`. -/
def dec0 : List Nat → Option (List Nat) :=
  fun ch => if ch = [99] then none else some ch

/-- Remove position 1 before anything is appended, then append one record
and sync. -/
def tr0 : List (POp Nat) := [POp.rm [1], POp.app [7], POp.syncOp]

/-- Append three records with a sync after the first two and an interleaved
remove of position 2. -/
def tr1 : List (POp Nat) :=
  [POp.app [5], POp.app [9], POp.syncOp, POp.rm [2], POp.app [4]]

/-- The state reached by `tr1` from a fresh backend. -/
def stY : PMMRState Unit Nat :=
  { hashsum_file := { saved := natCodec.ser 5 ++ natCodec.ser 9 ++ natCodec.ser 4, mmapLen := some 80 },
    remove_log := { removed := [2], file := [2] },
    pruned_nodes := (), pruneFile := [],
    buffer := [some 4], buffer_index := 2 }

/-! ## The claims -/

/-- C1: for every one-based position `p` outside the buffer range, `get(p)`
returns none if the removal log includes `p` or if `get_shift(p)` is none,
and otherwise reads `record_len = 32 + S` bytes of the data file at offset
`(p - 1 - shift) * record_len` and returns the decoded record, none when
decoding fails — i.e. `get` agrees with the spec's resolution. -/
theorem get_outside_buffer_matches_spec (c : Codec R) (ops : PruneOps PL)
    (st : PMMRState PL R) (position : Nat) (h1 : 1 ≤ position)
    (h2 : ¬ (st.buffer_index ≤ position - 1 ∧
      position - 1 < st.buffer_index + st.buffer.length)) :
    PMMR.get c ops st position = getSpecOutside c ops st position := by
  rw [get_pos c ops st position h1, if_neg h2]
  rfl

/-- Witness for C1 at position 5 of a concrete state. -/
theorem get_outside_buffer_matches_spec_witness :
    (1 ≤ 5) ∧
    ¬ (stC1.buffer_index ≤ 5 - 1 ∧ 5 - 1 < stC1.buffer_index + stC1.buffer.length) ∧
    PMMR.get natCodec unitOps stC1 5 = getSpecOutside natCodec unitOps stC1 5 :=
  ⟨by decide, by decide,
    get_outside_buffer_matches_spec natCodec unitOps stC1 5 (by decide) (by decide)⟩

/-- C2 (as stated) is false: in the trace `tr0` position 1 is removed before
its append, so it is appended at a contiguous position and never
subsequently removed, yet after sync `get(1)` returns none rather than the
appended record 7. -/
theorem append_get_roundtrip_counterexample :
    ((runOps natCodec (initState ()) tr0).bind
      (fun st => PMMR.get natCodec unitOps st 1)) = some none ∧
    (1, 7) ∈ ledger 0 tr0 ∧
    (1 : Nat) ∉ removedAfterAppend 0 tr0 ∧
    (some none : Option (Option Nat)) ≠ some (some 7) :=
  ⟨by decide, by decide, by decide, by decide⟩

/-- C2 (amended): over a fresh backend with an empty prune list (shift 0
everywhere) and a codec whose records are `record_len` bytes and
round-trip, for any trace of frontier appends, removes and syncs, and for
every appended position `p` never passed to remove at any point of the
trace, `get(p)` returns the record appended at `p` — whether `p` is still
buffered or already synced to disk. -/
theorem append_get_roundtrip_amended {PL R : Type} (c : Codec R)
    (ops : PruneOps PL) (pl0 : PL)
    (hshift : ∀ p, ops.get_shift pl0 p = some 0)
    (hlen : ∀ r, (c.ser r).length = 32 + c.sum_len)
    (hrt : ∀ r, c.deser (c.ser r) = some r)
    (tr : List (POp R)) (st2 : PMMRState PL R) (p : Nat) (r : R)
    (hrun : runOps c (initState pl0) tr = some st2)
    (hmem : (p, r) ∈ ledger 0 tr)
    (hrm : p ∉ removedPs tr) :
    PMMR.get c ops st2 p = some (some r) := by
  obtain ⟨i, hi, rfl⟩ := (ledger_mem p r tr 0).mp hmem
  have hInv := runOps_inv hlen tr (initState pl0) st2 [] [] (inv_init c pl0) hrun
  simp only [List.nil_append] at hInv
  have h2 := roundtrip_get hshift hlen hrt hInv i r hi (by simpa using hrm)
  simpa using h2

/-- Witness for the amended C2 on the trace `tr1`: position 1 (synced to
disk) still reads back record 5. -/
theorem append_get_roundtrip_amended_witness :
    PMMR.get natCodec unitOps stY 1 = some (some 5) :=
  append_get_roundtrip_amended natCodec unitOps ()
    (fun _ => rfl)
    (fun r => by simp [natCodec])
    (fun r => by simp [natCodec])
    tr1 stY 1 5 (by decide) (by decide) (by decide)

/-- C3 (code-bug evidence): `check_compact` never touches the remove log —
the truncation step 4 is commented out in the source — so whatever state it
returns carries the unchanged removal log, not a cleared one. -/
theorem check_compact_leaves_remove_log (c : Codec R) (ops : PruneOps PL)
    (st st2 : PMMRState PL R) (k : Nat)
    (h : PMMR.check_compact c ops st k = some st2) :
    st2.remove_log = st.remove_log := by
  unfold PMMR.check_compact at h
  split at h
  · cases h; rfl
  · split at h
    · cases h; rfl
    · simp only [compactionBody] at h
      split at h
      · cases h
      · split at h
        · cases h
        · cases h; rfl

/-- Witness for C3: a concrete compaction that goes through all its steps
(threshold exceeded, consistency check passed, data file rewritten and
re-synced) and still leaves the removal log `[1, 2]` nonempty. -/
theorem check_compact_leaves_remove_log_witness :
    PMMR.check_compact natCodec unitOps st3b 1 = some st3bAfter ∧
    st3bAfter.remove_log = st3b.remove_log ∧
    st3b.remove_log.removed ≠ [] :=
  have h : PMMR.check_compact natCodec unitOps st3b 1 = some st3bAfter := by decide
  ⟨h, check_compact_leaves_remove_log natCodec unitOps st3b st3bAfter 1 h, by decide⟩

/-- C4: when some removal-log position is already pruned — `pruned_pos`
returns none for it, which per the spec's PruneList semantics means the
position is already in the prune list — `check_compact` aborts with no side
effect: the returned state is exactly the input state (data file, prune
list, prune-list file and removal log all unchanged). -/
theorem check_compact_abort_no_side_effect (c : Codec R) (ops : PruneOps PL)
    (st : PMMRState PL R) (k p : Nat) (hp : p ∈ st.remove_log.removed)
    (hnone : ops.pruned_pos st.pruned_nodes p = none) :
    PMMR.check_compact c ops st k = some st := by
  unfold PMMR.check_compact
  by_cases hth : ¬ (k > 0 ∧ st.remove_log.lenRL > k ∨
      k = 0 ∧ st.remove_log.lenRL > RM_LOG_MAX_NODES)
  · rw [if_pos hth]
  · rw [if_neg hth]
    have hany : st.remove_log.removed.any
        (fun pos => (ops.pruned_pos st.pruned_nodes pos).isNone) = true :=
      List.any_eq_true.mpr ⟨p, hp, by rw [hnone]; rfl⟩
    rw [if_pos hany]

/-- Witness for C4: position 3 of the removal log is already pruned under
`ops4`, and `check_compact` with an exceeded threshold returns the state
unchanged. -/
theorem check_compact_abort_no_side_effect_witness :
    (3 ∈ st4.remove_log.removed) ∧
    ops4.pruned_pos st4.pruned_nodes 3 = none ∧
    PMMR.check_compact natCodec ops4 st4 1 = some st4 :=
  ⟨by decide, by decide,
    check_compact_abort_no_side_effect natCodec ops4 st4 1 3 (by decide) (by decide)⟩

/-- C5 (as stated) is false: with `max_len = 1` and a removal log of length
2 whose position 3 is already pruned, `check_compact(1)` performs no
compaction and changes no state although the length exceeds the threshold,
refuting the "only if" direction of the claimed equivalence. -/
theorem check_compact_threshold_counterexample :
    PMMR.check_compact natCodec ops4 st4 1 = some st4 ∧
    st4.remove_log.lenRL = 2 ∧ ¬ (st4.remove_log.lenRL ≤ 1) :=
  ⟨by decide, by decide, by decide⟩

/-- C5 (amended): `check_compact(k)` with `k > 0` performs no compaction and
changes no state whenever the removal log's length is at most `k`, and with
`k = 0` whenever it is at most `RM_LOG_MAX_NODES = 10000`; conversely, when
the threshold is exceeded the compaction body runs provided no removal-log
position is already in the prune list (otherwise the state is likewise
returned unchanged). -/
theorem check_compact_threshold_amended (c : Codec R) (ops : PruneOps PL)
    (st : PMMRState PL R) (k : Nat) :
    (¬ (k > 0 ∧ st.remove_log.lenRL > k ∨
        k = 0 ∧ st.remove_log.lenRL > RM_LOG_MAX_NODES) →
      PMMR.check_compact c ops st k = some st) ∧
    ((k > 0 ∧ st.remove_log.lenRL > k ∨
        k = 0 ∧ st.remove_log.lenRL > RM_LOG_MAX_NODES) →
      st.remove_log.removed.all
        (fun pos => (ops.pruned_pos st.pruned_nodes pos).isSome) = true →
      PMMR.check_compact c ops st k = compactionBody c ops st) := by
  constructor
  · intro h
    unfold PMMR.check_compact
    rw [if_pos h]
  · intro h hall
    have hany : (st.remove_log.removed.any
        fun pos => (ops.pruned_pos st.pruned_nodes pos).isNone) = false := by
      rw [List.any_eq_false]
      intro x hx
      have hx2 := List.all_eq_true.mp hall x hx
      cases hps : ops.pruned_pos st.pruned_nodes x
      · rw [hps] at hx2; cases hx2
      · simp [hps]
    unfold PMMR.check_compact
    rw [if_neg (not_not_intro h), hany]
    rw [if_neg (by decide)]

/-- Witness for the amended C5: a log of length 1 is below the threshold 3
(no-op), and a log of length 2 with threshold 1 and a clean prune list runs
the compaction body. -/
theorem check_compact_threshold_amended_witness :
    PMMR.check_compact natCodec unitOps st5a 3 = some st5a ∧
    PMMR.check_compact natCodec unitOps st5b 1 = compactionBody natCodec unitOps st5b :=
  ⟨(check_compact_threshold_amended natCodec unitOps st5a 3).1 (by decide),
   (check_compact_threshold_amended natCodec unitOps st5b 1).2 (by decide) (by decide)⟩

/-- C6 (code-bug evidence): `save_prune` on a nonempty (one-record, 40-byte)
source file with an empty prune-offsets vector panics — the loop condition
indexes `prune_offs[0]` out of bounds — instead of copying the file
unchanged as the specification requires. -/
theorem save_prune_empty_offs_panics :
    save_prune (List.replicate 40 7) [] 40 = none := by
  rfl

/-- C7: after any sequence of `RemoveLog::append` calls on a freshly opened
empty log, `removed` is strictly sorted (no duplicates) and `includes(p)`
holds exactly for the positions ever appended; appending a position already
present leaves the log — vector and file — completely unchanged. -/
theorem remove_log_is_set (ess : List (List Nat)) (p : Nat)
    (rl : RemoveLog) (e : Nat) (he : rl.includes e) :
    List.Sorted (· < ·) (rlAppendAll rlEmpty ess).removed ∧
    ((rlAppendAll rlEmpty ess).includes p ↔ p ∈ ess.flatten) ∧
    rl.append [e] = rl := by
  refine ⟨?_, ?_, append_mem_noop rl e he⟩
  · have hgen : ∀ (ess2 : List (List Nat)) (rl0 : RemoveLog),
        List.Sorted (· < ·) rl0.removed →
        List.Sorted (· < ·) (rlAppendAll rl0 ess2).removed := by
      intro ess2
      induction ess2 with
      | nil => exact fun rl0 h => h
      | cons es rest ih =>
        exact fun rl0 h => ih (rl0.append es) (append_sorted es rl0 h)
    exact hgen ess rlEmpty (by simp [rlEmpty])
  · have hgen : ∀ (ess2 : List (List Nat)) (rl0 : RemoveLog) (q : Nat),
        q ∈ (rlAppendAll rl0 ess2).removed ↔ q ∈ rl0.removed ∨ q ∈ ess2.flatten := by
      intro ess2
      induction ess2 with
      | nil => intro rl0 q; simp [rlAppendAll]
      | cons es rest ih =>
        intro rl0 q
        show q ∈ (rlAppendAll (rl0.append es) rest).removed ↔ _
        rw [ih (rl0.append es) q, append_removed_mem es rl0 q]
        simp only [List.flatten_cons, List.mem_append]
        tauto
    have h2 := hgen ess rlEmpty p
    simpa [rlEmpty, RemoveLog.includes] using h2

/-- Witness for C7: appends `[[9, 2], [2]]` from empty, and a no-op repeat
removal of 9 on a log already holding it. -/
theorem remove_log_is_set_witness :
    List.Sorted (· < ·) (rlAppendAll rlEmpty [[9, 2], [2]]).removed ∧
    ((rlAppendAll rlEmpty [[9, 2], [2]]).includes 2 ↔ 2 ∈ [[9, 2], [2]].flatten) ∧
    rlW.append [9] = rlW :=
  remove_log_is_set [[9, 2], [2]] 2 rlW 9 (by decide)

/-- C8: `read_ordered_vec` returns the empty vector for an absent file;
whatever it returns successfully is strictly increasing with no duplicates
(and it does succeed whenever every chunk decodes); any decode error is
reported as the corruption error naming the path. -/
theorem read_ordered_vec_spec (dec : List Nat → Option (List Nat))
    (path : String) (chunks : List (List Nat)) (l : List Nat) (e : String) :
    read_ordered_vec dec path none = .ok [] ∧
    (read_ordered_vec dec path (some chunks) = .ok l → List.Sorted (· < ·) l) ∧
    ((∀ ch ∈ chunks, (dec ch).isSome) →
      ∃ l2, read_ordered_vec dec path (some chunks) = .ok l2) ∧
    (read_ordered_vec dec path (some chunks) = .error e → e = corruptionMsg path) := by
  refine ⟨rfl, ?_, ?_, ?_⟩
  · intro h
    exact readOrderedGo_sorted dec path chunks [] l (by simp) h
  · intro hdec
    exact readOrderedGo_ok dec path chunks hdec []
  · intro h
    exact readOrderedGo_error dec path chunks [] e h

/-- Witness for C8 with a concrete codec, chunks and path. -/
theorem read_ordered_vec_spec_witness :
    List.Sorted (· < ·) [1, 2, 3] ∧
    (∃ l2, read_ordered_vec dec0 "pmmr_rm_log.bin" (some [[3, 1], [2]]) = .ok l2) ∧
    corruptionMsg "pmmr_rm_log.bin" = corruptionMsg "pmmr_rm_log.bin" :=
  ⟨(read_ordered_vec_spec dec0 "pmmr_rm_log.bin" [[3, 1], [2]] [1, 2, 3]
      "").2.1 rfl,
   (read_ordered_vec_spec dec0 "pmmr_rm_log.bin" [[3, 1], [2]] [] "").2.2.1
      (by decide),
   (read_ordered_vec_spec dec0 "pmmr_rm_log.bin" [[99]] []
      (corruptionMsg "pmmr_rm_log.bin")).2.2.2 rfl⟩

/-- C9: `sync` advances `buffer_index` by the buffer length and clears the
buffer before the fsync/remap step, so even when that step fails the buffer
is already empty and `buffer_index` already advanced, and the data file
(mmap included) is left untouched by the failed step. -/
theorem sync_mutates_before_fsync :
    ∀ (PL R : Type) (b : Bool) (st : PMMRState PL R),
      (PMMR.sync b st).1.buffer = [] ∧
      (PMMR.sync b st).1.buffer_index = st.buffer_index + st.buffer.length ∧
      (PMMR.sync false st).1.hashsum_file = st.hashsum_file ∧
      (PMMR.sync false st).2 = false := by
  intro PL R b st
  cases b
  · exact ⟨rfl, rfl, rfl, rfl⟩
  · exact ⟨rfl, rfl, rfl, rfl⟩

/-- C10: `get` computes `position - 1` by unsigned subtraction before any
range test, so `get(0)` underflows (a panic, the outer none) instead of
returning none, while for every one-based position the subtraction
succeeds. -/
theorem get_zero_underflows :
    (∀ (PL R : Type) (c : Codec R) (ops : PruneOps PL) (st : PMMRState PL R),
      PMMR.get c ops st 0 = none) ∧
    (∀ p : Nat, 1 ≤ p → usizeSub p 1 = some (p - 1)) := by
  constructor
  · intro PL R c ops st
    rfl
  · intro p hp
    simp [usizeSub, hp]

/-- Witness for C10 at a concrete state and position. -/
theorem get_zero_underflows_witness :
    PMMR.get natCodec unitOps stC1 0 = none ∧ usizeSub 3 1 = some 2 :=
  ⟨get_zero_underflows.1 Unit Nat natCodec unitOps stC1,
   get_zero_underflows.2 3 (by decide)⟩

end GrinStore
